import Mathlib

set_option maxRecDepth 100000
set_option maxHeartbeats 2000000

/-!
Verification development for the smartMeta SEO-metadata pipeline
(`src/lib/api.ts`).  JavaScript strings are modelled as `List Char`
(ASCII semantics for the character classes used by the code), the
regular-expression based rewrites of the source are modelled by
explicit matcher functions together with a global-substitution
scanner, and the two remote entry points are modelled as functions of
the behaviour of the hosted inference client (one `Except` outcome per
retry attempt).  Machine aspects that are genuinely external — the
HTTP transport, `JSON.parse` on arbitrary text, `Date.now()` — enter
the model as parameters: an abstract attempt function, an abstract
parse outcome, an abstract identifier.
-/

/-- Characters of a Lean string literal, used to transcribe the string
literals of the source. -/
def chars (s : String) : List Char := s.data

/-- JS `\s` (ASCII part): the whitespace characters recognised by the
regular expressions in `api.ts`. -/
def wsChar (c : Char) : Bool :=
  c == ' ' || c == '\t' || c == '\n' || c == '\r' || c == '\x0b' || c == '\x0c'

/-- JS `\d`: ASCII decimal digits. -/
def digitChar (c : Char) : Bool :=
  48 ≤ c.toNat && c.toNat ≤ 57

/-- ASCII letters. -/
def letterChar (c : Char) : Bool :=
  (97 ≤ c.toNat && c.toNat ≤ 122) || (65 ≤ c.toNat && c.toNat ≤ 90)

/-- JS `\w`: `[A-Za-z0-9_]`. -/
def wordChar (c : Char) : Bool :=
  letterChar c || digitChar c || c == '_'

/-- JS `toLowerCase` restricted to ASCII. -/
def lowerChar (c : Char) : Char :=
  if 65 ≤ c.toNat && c.toNat ≤ 90 then Char.ofNat (c.toNat + 32) else c

/-- Length of the maximal prefix of `l` whose characters satisfy `p`. -/
def countWhile (p : Char → Bool) (l : List Char) : Nat :=
  (l.takeWhile p).length

/-- Matcher for the regex `\d+\.\s+` of `cleanDescription` (a maximal
digit run, a literal period, a maximal whitespace run): returns the
length of the match at the head of the input, if any. -/
def numberedPointM (l : List Char) : Option Nat :=
  let d := countWhile digitChar l
  if d = 0 then none
  else
    match l.drop d with
    | '.' :: rest =>
      let w := countWhile wsChar rest
      if w = 0 then none else some (d + 1 + w)
    | _ => none

/-- Case-insensitive literal prefix test; the pattern is given in
lowercase. -/
def ciLit : List Char → List Char → Bool
  | [], _ => true
  | _ :: _, [] => false
  | p :: ps, c :: cs => (lowerChar c == p) && ciLit ps cs

/-- Matcher for the regex `here are \d+ tips for` (case-insensitive) of
`cleanDescription`. -/
def hereAreM (l : List Char) : Option Nat :=
  if ciLit (chars "here are ") l then
    let rest := l.drop 9
    let d := countWhile digitChar rest
    if d = 0 then none
    else if ciLit (chars " tips for") (rest.drop d) then some (9 + d + 9)
    else none
  else none

/-- Matcher for the regex `\s+`. -/
def wsRunM (l : List Char) : Option Nat :=
  let n := countWhile wsChar l
  if n = 0 then none else some n

/-- Matcher for the regex `\s*\n\s*`: the maximal whitespace run at the
head matches exactly when it contains a newline. -/
def nlRunM (l : List Char) : Option Nat :=
  let n := countWhile wsChar l
  if n ≠ 0 && (l.takeWhile wsChar).contains '\n' then some n else none

/-- Matcher for the regex `\s*\.\s*`. -/
def periodM (l : List Char) : Option Nat :=
  let a := countWhile wsChar l
  match l.drop a with
  | '.' :: rest => some (a + 1 + countWhile wsChar rest)
  | _ => none

/-- Matcher for the regex `\s*,\s*`. -/
def commaM (l : List Char) : Option Nat :=
  let a := countWhile wsChar l
  match l.drop a with
  | ',' :: rest => some (a + 1 + countWhile wsChar rest)
  | _ => none

/-- Matcher for the sentence-splitting regex `(?:\.|\?|\!)\s+` of
`formatDescription`. -/
def termWsM (l : List Char) : Option Nat :=
  match l with
  | [] => none
  | c :: rest =>
    if c == '.' || c == '?' || c == '!' then
      let w := countWhile wsChar rest
      if w = 0 then none else some (1 + w)
    else none

/-- Matcher for splitting on one literal character (JS
`String.prototype.split` with a string separator of length 1). -/
def charM (ch : Char) (l : List Char) : Option Nat :=
  match l with
  | [] => none
  | c :: _ => if c == ch then some 1 else none

/-- Global regex substitution (JS `replace(/re/g, repl)`), fuelled: at
each position, if the matcher fires (consuming at least one character)
the match is replaced and scanning resumes after it, otherwise the
character is kept.  With fuel at least the length of the input the
fuel guard is never reached. -/
def gsubF (m : List Char → Option Nat) (repl : List Char) : Nat → List Char → List Char
  | _, [] => []
  | 0, l => l
  | fuel + 1, c :: cs =>
    match m (c :: cs) with
    | some (k + 1) => repl ++ gsubF m repl fuel (cs.drop k)
    | _ => c :: gsubF m repl fuel cs

/-- Global regex substitution with sufficient fuel. -/
def gsub (m : List Char → Option Nat) (repl : List Char) (l : List Char) : List Char :=
  gsubF m repl l.length l

/-- JS `split` against a matcher, fuelled; produces the pieces between
matches (so a leading/trailing match yields a leading/trailing empty
piece, and the empty string splits to `[""]`). -/
def splitMF (m : List Char → Option Nat) : Nat → List Char → List Char → List (List Char)
  | _, acc, [] => [acc.reverse]
  | 0, acc, l => [acc.reverse ++ l]
  | fuel + 1, acc, c :: cs =>
    match m (c :: cs) with
    | some (k + 1) => acc.reverse :: splitMF m fuel [] (cs.drop k)
    | _ => splitMF m fuel (c :: acc) cs

/-- JS `split` with sufficient fuel. -/
def splitM (m : List Char → Option Nat) (l : List Char) : List (List Char) :=
  splitMF m l.length [] l

/-- JS `String.prototype.trim` (ASCII whitespace). -/
def trim (l : List Char) : List Char :=
  ((l.dropWhile wsChar).reverse.dropWhile wsChar).reverse

/-- The stop-word set of `extractKeywords` in `api.ts`. -/
def commonWords : List (List Char) :=
  [chars "and", chars "the", chars "for", chars "in", chars "to", chars "of",
   chars "a", chars "with", chars "by", chars "on", chars "your"]

/-- Note: `Array.from(new Set(words))`: de-duplication preserving first-seen
order. -/
def dedupFirst (seen : List (List Char)) : List (List Char) → List (List Char)
  | [] => []
  | w :: rest =>
    if seen.contains w then dedupFirst seen rest
    else w :: dedupFirst (w :: seen) rest

/-- Note: `extractKeywords` of `api.ts`: lower-case, delete every character
that is neither `\w` nor `\s`, split on `\s+`, keep words of length
greater than 3 that are not stop words, de-duplicate keeping first
occurrences, take the first 5, join with `", "`. -/
def extractKeywords (content : List Char) : List Char :=
  let words :=
    (splitM wsRunM ((content.map lowerChar).filter (fun c => wordChar c || wsChar c))).filter
      (fun w => 3 < w.length && !(commonWords.contains w))
  List.intercalate (chars ", ") ((dedupFirst [] words).take 5)

/-- Note: `cleanDescription` of `api.ts`: the seven chained `replace` calls
followed by `trim`, in source order. -/
def cleanDescription (text : List Char) : List Char :=
  trim (gsub wsRunM [' ']
    (gsub commaM (chars ", ")
      (gsub periodM (chars ". ")
        (gsub nlRunM [' ']
          (gsub wsRunM [' ']
            (gsub hereAreM (chars "Discover essential tips for")
              (gsub numberedPointM [] text)))))))

/-- Note: `formatDescription` of `api.ts`: empty input maps to the empty
string; otherwise the cleaned text is split on sentence terminators
followed by whitespace, the first two trimmed non-empty fragments are
rejoined with `". "` and a trailing period is appended; if no fragment
survives, the cleaned text is returned unchanged. -/
def formatDescription (description : List Char) : List Char :=
  if description.isEmpty then []
  else
    let cleaned := cleanDescription description
    let firstTwoParts :=
      List.intercalate (chars ". ")
        ((((splitM termWsM cleaned).take 2).map trim).filter (fun p => !p.isEmpty))
    if firstTwoParts.isEmpty then cleaned else firstTwoParts ++ ['.']

/-- Result of one run of the `retryWithBackoff` loop: the value of a
successful attempt, the error of the last allowed failing attempt
(rethrown unchanged), or the generic `Error('Max retries reached')`
thrown after the loop. -/
inductive RetryResult (E A : Type) where
  | ok (a : A)
  | opError (e : E)
  | genericMaxRetries
  deriving DecidableEq

/-- Observable trace of `retryWithBackoff`: final outcome, number of
invocations of the operation, and the sequence of backoff sleeps in
milliseconds. -/
structure RetryTrace (E A : Type) where
  result : RetryResult E A
  calls : Nat
  sleeps : List Nat
  deriving DecidableEq

/-- The `for (let i = 0; i < maxRetries; i++)` loop of
`retryWithBackoff`; `fuel` bounds the remaining iterations (the entry
point passes `maxRetries`, which is always enough). -/
def retryLoop {E A : Type} (f : Nat → Except E A) (maxRetries baseDelay : Nat) :
    Nat → Nat → Nat → List Nat → RetryTrace E A
  | 0, _, calls, sleeps => ⟨.genericMaxRetries, calls, sleeps⟩
  | fuel + 1, i, calls, sleeps =>
    if i < maxRetries then
      match f i with
      | .ok a => ⟨.ok a, calls + 1, sleeps⟩
      | .error e =>
        if i = maxRetries - 1 then ⟨.opError e, calls + 1, sleeps⟩
        else retryLoop f maxRetries baseDelay fuel (i + 1) (calls + 1)
          (sleeps ++ [baseDelay * 2 ^ i])
    else ⟨.genericMaxRetries, calls, sleeps⟩

/-- Note: `retryWithBackoff` of `api.ts`, with the behaviour of the wrapped
asynchronous operation given as the outcome of its `i`-th invocation. -/
def retryWithBackoff {E A : Type} (f : Nat → Except E A) (maxRetries baseDelay : Nat) :
    RetryTrace E A :=
  retryLoop f maxRetries baseDelay maxRetries 0 0 []

/-- Errors thrown inside the two entry points: a transport/model error
of the remote call, the exception of `JSON.parse` (or of calling
`.trim()` on a non-string field), and the `Error("Incomplete
metadata")` of the validation step. -/
inductive JsError where
  | remoteError (code : Nat)
  | jsonParseError
  | incompleteMetadata
  deriving DecidableEq

/-- Outcome of `JSON.parse(response.generated_text)` followed by field
access, for a successful remote call: either the parse (or a later
`.trim()` on a non-string field) throws, or three string fields are
obtained.  The mapping from raw generated text to this outcome is the
external JavaScript JSON semantics and is therefore a parameter of the
model. -/
inductive ParseResult where
  | parseError
  | fields (title description keywords : List Char)
  deriving DecidableEq

/-- The `PageMetadata` interface of `api.ts`. -/
structure PageMetadata where
  id : Nat
  url : List Char
  title : List Char
  description : List Char
  keywords : List Char
  deriving DecidableEq

/-- Note: `getPages` of `api.ts`: a stub returning the empty collection. -/
def getPages : List PageMetadata := []

/-- The body of the inner `try` of `generateLLMMetadata` on the success
path: validate that the three parsed fields are truthy (non-empty
strings) and build the result, or throw. -/
def successBody (idv : Nat) (url : List Char) (p : ParseResult) :
    Except JsError PageMetadata :=
  match p with
  | .parseError => .error .jsonParseError
  | .fields t d k =>
    if t.isEmpty || d.isEmpty || k.isEmpty then .error .incompleteMetadata
    else .ok ⟨idv, url, trim t, formatDescription d, trim k⟩

/-- Note: `content.split('.')[0]`: the text before the first period (the
whole content when there is none). -/
def mainTopicOf (content : List Char) : List Char :=
  content.takeWhile (fun c => c ≠ '.')

/-- The inner-catch fallback of `generateLLMMetadata` (parse or
validation failure): discover-phrased description template. -/
def innerFallback (idv : Nat) (url content : List Char) : PageMetadata :=
  ⟨idv, url, trim (mainTopicOf content),
   formatDescription
     (chars "Discover comprehensive insights about " ++
       (mainTopicOf content).map lowerChar ++
       chars ". Get expert guidance and practical strategies for better results."),
   extractKeywords content⟩

/-- The outer-catch fallback of `generateLLMMetadata` (retries
exhausted): explore-phrased description template. -/
def outerFallback (idv : Nat) (url content : List Char) : PageMetadata :=
  ⟨idv, url, trim (mainTopicOf content),
   formatDescription
     (chars "Explore essential information about " ++
       (mainTopicOf content).map lowerChar ++
       chars ". Find practical tips and expert recommendations for optimal outcomes."),
   extractKeywords content⟩

/-- Note: `generateLLMMetadata` of `api.ts`.  `idv` stands for the
`Date.now()` identifier, and `attempts i` is the outcome of the `i`-th
invocation of the remote inference client (already composed with the
JSON-parse semantics of its generated text).  The nested `try`/`catch`
of the source is transcribed as the match structure: errors of the
remote stage are absorbed by the outer catch, errors of the
parse/validate stage by the inner catch. -/
def generateLLMMetadata (idv : Nat) (url content : List Char)
    (attempts : Nat → Except JsError ParseResult) : Except JsError PageMetadata :=
  match (retryWithBackoff attempts 3 1000).result with
  | .ok p =>
    match successBody idv url p with
    | .ok pm => .ok pm
    | .error _ => .ok (innerFallback idv url content)
  | .opError _ => .ok (outerFallback idv url content)
  | .genericMaxRetries => .ok (outerFallback idv url content)

/-- The hard-coded suggestion list of the `catch` branch of
`analyzeContent`. -/
def fallbackSuggestions : List (List Char) :=
  [chars "Ensure your content includes relevant keywords.",
   chars "Write a compelling meta description.",
   chars "Use header tags (H1, H2, etc.) to structure your content.",
   chars "Include internal and external links where appropriate.",
   chars "Optimize your images with alt text and descriptive file names.",]

/-- Note: `analyzeContent` of `api.ts`: `attempts i` is the generated text
(or error) of the `i`-th invocation of the remote client; on success
the text is split on newlines and empty lines are discarded, on any
failure the fixed suggestion list is returned. -/
def analyzeContent (content : List Char) (attempts : Nat → Except JsError (List Char)) :
    Except JsError (List (List Char)) :=
  match (retryWithBackoff attempts 3 1000).result with
  | .ok t => .ok ((splitM (charM '\n') t).filter (fun x => !x.isEmpty))
  | .opError _ => .ok fallbackSuggestions
  | .genericMaxRetries => .ok fallbackSuggestions

/-- A string contains an ASCII letter. -/
def hasLetter (l : List Char) : Bool := l.any letterChar

/-- No two adjacent whitespace characters. -/
def noWsPair : List Char → Bool
  | a :: b :: rest => !(wsChar a && wsChar b) && noWsPair (b :: rest)
  | _ => true

/-- The first character exists and is a letter. -/
def headIsLetter (s : List Char) : Bool :=
  match s.head? with
  | some c => letterChar c
  | none => false

/-- The last character exists and is a letter. -/
def lastIsLetter (s : List Char) : Bool :=
  match s.getLast? with
  | some c => letterChar c
  | none => false

/-- A plain sentence body: non-empty, made of ASCII letters and single
spaces, beginning and ending with a letter.  This is the formalisation
of one sentence of an "already 1-2-sentence text" in the idempotence
property of `formatDescription`. -/
def goodSentence (s : List Char) : Bool :=
  !s.isEmpty &&
  s.all (fun c => letterChar c || c == ' ') &&
  headIsLetter s &&
  lastIsLetter s &&
  noWsPair s

/-- A one-sentence text ending in a period. -/
def oneSentence (s : List Char) : List Char := s ++ ['.']

/-- A two-sentence text ending in a period. -/
def twoSentences (s1 s2 : List Char) : List Char :=
  s1 ++ chars ". " ++ s2 ++ ['.']

/-- Trailing-period normalisation: discard the trailing run of periods
and whitespace. -/
def stripTrailingPeriodWs (l : List Char) : List Char :=
  (l.reverse.dropWhile (fun c => c == '.' || wsChar c)).reverse

/-! ## Helper lemmas -/

/-- With an operation failing on every invocation, the retry loop with
the default configuration performs exactly three attempts, sleeps
1000ms and then 2000ms, and rethrows the error of the third attempt. -/
theorem retry_three_failures {E A : Type} (f : Nat → Except E A) (errs : Nat → E)
    (h : ∀ i, f i = .error (errs i)) :
    retryWithBackoff f 3 1000 = ⟨.opError (errs 2), 3, [1000, 2000]⟩ := by
  simp [retryWithBackoff, retryLoop, h 0, h 1, h 2]

/-- A successful result of `successBody` copies the url argument. -/
theorem successBody_url {idv : Nat} {url : List Char} {p : ParseResult}
    {pm : PageMetadata} (h : successBody idv url p = .ok pm) : pm.url = url := by
  unfold successBody at h
  cases p with
  | parseError => simp at h
  | fields t d k =>
    by_cases he : (t.isEmpty || d.isEmpty || k.isEmpty) = true
    · simp [he] at h
    · simp [he] at h
      simp [← h]

/-! ## Claims -/

/-- Claim C9: calling `retryWithBackoff` with `maxRetries = 0` never
runs the loop body: the operation is not invoked, no sleep happens, and
the generic `Error('Max retries reached')` safety net is thrown. -/
theorem c9_retry_zero {E A : Type} (f : Nat → Except E A) (baseDelay : Nat) :
    retryWithBackoff f 0 baseDelay =
      ⟨RetryResult.genericMaxRetries, 0, []⟩ := rfl

/-- Claim C3: with `maxRetries = 3`, `baseDelay = 1000` and an
operation failing on every invocation, `retryWithBackoff` invokes the
operation exactly 3 times, sleeps 1000ms then 2000ms, and rethrows the
failure of the third invocation unchanged (not a wrapped or generic
error). -/
theorem c3_retry_schedule {E A : Type} (f : Nat → Except E A) (errs : Nat → E)
    (h : ∀ i, f i = .error (errs i)) :
    retryWithBackoff f 3 1000 =
      ⟨RetryResult.opError (errs 2), 3, [1000, 2000]⟩ :=
  retry_three_failures f errs h

/-- Witness for C3 at a concrete always-failing operation. -/
theorem c3_retry_schedule_witness :
    retryWithBackoff (fun _ => (Except.error 7 : Except Nat Nat)) 3 1000 =
      ⟨RetryResult.opError 7, 3, [1000, 2000]⟩ :=
  c3_retry_schedule (fun _ => Except.error 7) (fun _ => 7) (fun _ => rfl)

/-- Claim C2: `generateLLMMetadata` never signals failure to its
caller: whatever the identifier, url, content and remote behaviour, it
returns a `PageMetadata` (an `.ok` value), absorbing remote-call and
parse/validation failures into fallback results. -/
theorem c2_total_no_failure (idv : Nat) (url content : List Char)
    (attempts : Nat → Except JsError ParseResult) :
    ∃ pm, generateLLMMetadata idv url content attempts = .ok pm := by
  unfold generateLLMMetadata
  cases h : (retryWithBackoff attempts 3 1000).result with
  | ok p =>
    cases h2 : successBody idv url p with
    | ok pm => exact ⟨pm, by simp [h2]⟩
    | error e => exact ⟨innerFallback idv url content, by simp [h2]⟩
  | opError e => exact ⟨outerFallback idv url content, by simp⟩
  | genericMaxRetries => exact ⟨outerFallback idv url content, by simp⟩

/-- Claim C8: on every path of `generateLLMMetadata` (success, inner
parse-failure fallback, outer retry-exhaustion fallback) the `url`
field of the returned `PageMetadata` equals the `url` argument
unchanged. -/
theorem c8_url_preserved (idv : Nat) (url content : List Char)
    (attempts : Nat → Except JsError ParseResult) :
    (generateLLMMetadata idv url content attempts).map PageMetadata.url =
      .ok url := by
  unfold generateLLMMetadata
  cases h : (retryWithBackoff attempts 3 1000).result with
  | ok p =>
    cases h2 : successBody idv url p with
    | ok pm => simp [h2, Except.map, successBody_url h2]
    | error e => simp [h2, Except.map, innerFallback]
  | opError e => simp [Except.map, outerFallback]
  | genericMaxRetries => simp [Except.map, outerFallback]

/-- Claim C10: a successful remote response consisting only of
newlines makes `analyzeContent` return the empty list — the 5-item
fallback list is not used, because success results are not checked for
non-emptiness. -/
theorem c10_empty_success_result :
    analyzeContent (chars "any") (fun _ => .ok (chars "\n\n")) = .ok [] ∧
      fallbackSuggestions ≠ [] := by
  constructor
  · rfl
  · decide

/-- Counterexample to claim C4 as stated: on the spec's own example
input the code does not return `"quick, brown, fox, jumps, over"`
("fox" and "dog" have length 3 and are discarded by the
`length > 3` filter). -/
theorem c4_counterexample :
    extractKeywords (chars "The quick brown fox jumps over the lazy dog") ≠
      chars "quick, brown, fox, jumps, over" := by decide

/-- Claim C4 as amended: `extractKeywords` lower-cases, strips
non-word/non-space characters, splits on whitespace, discards stop
words and words of length at most 3, de-duplicates preserving
first-seen order and joins the first 5 with `", "`; on the example
input this yields `"quick, brown, jumps, over, lazy"`. -/
theorem c4_extractKeywords_example :
    extractKeywords (chars "The quick brown fox jumps over the lazy dog") =
      chars "quick, brown, jumps, over, lazy" := by decide

/-- Claim C5: when the remote call succeeds but the generated text does
not yield a valid metadata object (parse failure, or a missing/empty
field), `generateLLMMetadata "http://x" "Healthy eating matters. It
helps you."` returns a `PageMetadata` whose title is `"Healthy eating
matters"`, whose keywords equal `extractKeywords` of the content, and
whose description begins `"Discover comprehensive insights about
healthy eating matters."`. -/
theorem c5_inner_fallback_shape (idv : Nat) (p : ParseResult)
    (h : (successBody idv (chars "http://x") p).isOk = false) :
    ∃ pm, generateLLMMetadata idv (chars "http://x")
        (chars "Healthy eating matters. It helps you.") (fun _ => .ok p) = .ok pm ∧
      pm.title = chars "Healthy eating matters" ∧
      pm.keywords = extractKeywords (chars "Healthy eating matters. It helps you.") ∧
      (chars "Discover comprehensive insights about healthy eating matters.").isPrefixOf
        pm.description = true := by
  have hret : (retryWithBackoff (fun _ => Except.ok p : Nat → Except JsError ParseResult)
      3 1000).result = .ok p := rfl
  cases h2 : successBody idv (chars "http://x") p with
  | ok pm => rw [h2] at h; simp [Except.isOk, Except.toBool] at h
  | error e =>
    refine ⟨innerFallback idv (chars "http://x")
      (chars "Healthy eating matters. It helps you."), ?_, ?_, ?_, ?_⟩
    · unfold generateLLMMetadata
      rw [hret]
      simp [h2]
    · show trim (mainTopicOf (chars "Healthy eating matters. It helps you.")) =
        chars "Healthy eating matters"
      decide
    · rfl
    · show (chars "Discover comprehensive insights about healthy eating matters.").isPrefixOf
        (formatDescription
          (chars "Discover comprehensive insights about " ++
            (mainTopicOf (chars "Healthy eating matters. It helps you.")).map lowerChar ++
            chars ". Get expert guidance and practical strategies for better results.")) = true
      decide

/-- Witness for C5 with a parse-failure outcome. -/
theorem c5_inner_fallback_shape_witness :
    ∃ pm, generateLLMMetadata 0 (chars "http://x")
        (chars "Healthy eating matters. It helps you.")
        (fun _ => .ok ParseResult.parseError) = .ok pm ∧
      pm.title = chars "Healthy eating matters" ∧
      pm.keywords = extractKeywords (chars "Healthy eating matters. It helps you.") ∧
      (chars "Discover comprehensive insights about healthy eating matters.").isPrefixOf
        pm.description = true :=
  c5_inner_fallback_shape 0 ParseResult.parseError rfl

/-- Claim C7: `analyzeContent` never fails outward: when the remote
call fails on every retry attempt it returns exactly the fixed
hard-coded list of 5 generic SEO suggestions, in order; when the
remote call succeeds it returns the generated text split on newlines
with empty lines discarded, in original order (a sublist of the split
containing every non-empty line). -/
theorem c7_analyzeContent_outcomes :
    (∀ (content : List Char) (errs : Nat → JsError)
        (attempts : Nat → Except JsError (List Char)),
      (∀ i, attempts i = .error (errs i)) →
      analyzeContent content attempts =
        .ok [chars "Ensure your content includes relevant keywords.",
             chars "Write a compelling meta description.",
             chars "Use header tags (H1, H2, etc.) to structure your content.",
             chars "Include internal and external links where appropriate.",
             chars "Optimize your images with alt text and descriptive file names."]) ∧
    (∀ (content t : List Char), ∃ r,
      analyzeContent content (fun _ => .ok t) = .ok r ∧
      r.Sublist (splitM (charM '\n') t) ∧
      (∀ x ∈ r, x ≠ []) ∧
      (∀ x ∈ splitM (charM '\n') t, x ≠ [] → x ∈ r)) := by
  constructor
  · intro content errs attempts h
    unfold analyzeContent
    rw [retry_three_failures attempts errs h]
    rfl
  · intro content t
    refine ⟨(splitM (charM '\n') t).filter (fun x => !x.isEmpty), rfl, ?_, ?_, ?_⟩
    · exact List.filter_sublist _
    · intro x hx hxe
      have h1 := List.of_mem_filter hx
      subst hxe
      simp at h1
    · intro x hx hne
      refine List.mem_filter.2 ⟨hx, ?_⟩
      cases x with
      | nil => exact absurd rfl hne
      | cons a as => rfl

/-- Witness for C7 at a concrete always-failing client. -/
theorem c7_analyzeContent_outcomes_witness :
    analyzeContent (chars "any") (fun _ => .error (JsError.remoteError 0)) =
      .ok [chars "Ensure your content includes relevant keywords.",
           chars "Write a compelling meta description.",
           chars "Use header tags (H1, H2, etc.) to structure your content.",
           chars "Include internal and external links where appropriate.",
           chars "Optimize your images with alt text and descriptive file names."] :=
  c7_analyzeContent_outcomes.1 (chars "any") (fun _ => JsError.remoteError 0)
    (fun _ => .error (JsError.remoteError 0)) (fun _ => rfl)

/-! ## Letter preservation through the cleaning pipeline (for C1) -/

/-- An ASCII whitespace character is not a letter. -/
theorem ws_not_letter {c : Char} (h : wsChar c = true) : letterChar c = false := by
  simp only [wsChar, Bool.or_eq_true, beq_iff_eq] at h
  rcases h with ((((h | h) | h) | h) | h) | h <;> subst h <;> decide

/-- A letter is not whitespace. -/
theorem letter_not_ws {c : Char} (h : letterChar c = true) : wsChar c = false := by
  by_cases hw : wsChar c = true
  · rw [ws_not_letter hw] at h
    exact absurd h (by simp)
  · simpa using hw

/-- A decimal digit is not a letter. -/
theorem digit_not_letter {c : Char} (h : digitChar c = true) : letterChar c = false := by
  simp only [digitChar, Bool.and_eq_true, decide_eq_true_eq] at h
  simp only [letterChar, Bool.or_eq_false_iff, Bool.and_eq_false_iff]
  constructor <;> simp only [decide_eq_false_iff_not, not_le] <;> omega

/-- Note: `take` of the length of the matching prefix is the matching
prefix. -/
theorem take_countWhile (p : Char → Bool) (l : List Char) :
    l.take (countWhile p l) = l.takeWhile p := by
  induction l with
  | nil => rfl
  | cons c cs ih =>
    by_cases h : p c
    · simp [countWhile, List.takeWhile_cons, h] at ih ⊢
      exact ih
    · simp [countWhile, List.takeWhile_cons, h]

/-- The region matched by `wsRunM` contains no letter. -/
theorem wsRunM_region {l : List Char} {k : Nat} (h : wsRunM l = some k) :
    ∀ c ∈ l.take k, letterChar c = false := by
  simp only [wsRunM] at h
  split at h
  · exact absurd h (by simp)
  · injection h with hk
    subst hk
    rw [take_countWhile]
    intro c hc
    exact ws_not_letter (List.mem_takeWhile_imp hc)

/-- The region matched by `nlRunM` contains no letter. -/
theorem nlRunM_region {l : List Char} {k : Nat} (h : nlRunM l = some k) :
    ∀ c ∈ l.take k, letterChar c = false := by
  simp only [nlRunM] at h
  split at h
  · injection h with hk
    subst hk
    rw [take_countWhile]
    intro c hc
    exact ws_not_letter (List.mem_takeWhile_imp hc)
  · exact absurd h (by simp)

/-- The region matched by `periodM` contains no letter. -/
theorem periodM_region {l : List Char} {k : Nat} (h : periodM l = some k) :
    ∀ c ∈ l.take k, letterChar c = false := by
  simp only [periodM] at h
  split at h
  case h_1 rest heq =>
    injection h with hk
    subst hk
    intro c hc
    rw [show countWhile wsChar l + 1 + countWhile wsChar rest =
      countWhile wsChar l + (1 + countWhile wsChar rest) by omega, List.take_add,
      take_countWhile, heq] at hc
    rcases List.mem_append.1 hc with hc | hc
    · exact ws_not_letter (List.mem_takeWhile_imp hc)
    · rw [show 1 + countWhile wsChar rest = countWhile wsChar rest + 1 by omega,
        List.take_succ_cons] at hc
      rcases hc with _ | hc
      · decide
      · next hc =>
        rw [take_countWhile] at hc
        exact ws_not_letter (List.mem_takeWhile_imp hc)
  case h_2 => exact absurd h (by simp)

/-- The region matched by `commaM` contains no letter. -/
theorem commaM_region {l : List Char} {k : Nat} (h : commaM l = some k) :
    ∀ c ∈ l.take k, letterChar c = false := by
  simp only [commaM] at h
  split at h
  case h_1 rest heq =>
    injection h with hk
    subst hk
    intro c hc
    rw [show countWhile wsChar l + 1 + countWhile wsChar rest =
      countWhile wsChar l + (1 + countWhile wsChar rest) by omega, List.take_add,
      take_countWhile, heq] at hc
    rcases List.mem_append.1 hc with hc | hc
    · exact ws_not_letter (List.mem_takeWhile_imp hc)
    · rw [show 1 + countWhile wsChar rest = countWhile wsChar rest + 1 by omega,
        List.take_succ_cons] at hc
      rcases hc with _ | hc
      · decide
      · next hc =>
        rw [take_countWhile] at hc
        exact ws_not_letter (List.mem_takeWhile_imp hc)
  case h_2 => exact absurd h (by simp)

/-- The region matched by `numberedPointM` contains no letter. -/
theorem numberedPointM_region {l : List Char} {k : Nat} (h : numberedPointM l = some k) :
    ∀ c ∈ l.take k, letterChar c = false := by
  simp only [numberedPointM] at h
  split at h
  · exact absurd h (by simp)
  · split at h
    case h_1 rest heq =>
      split at h
      · exact absurd h (by simp)
      · injection h with hk
        subst hk
        intro c hc
        rw [show countWhile digitChar l + 1 + countWhile wsChar rest =
          countWhile digitChar l + (1 + countWhile wsChar rest) by omega, List.take_add,
          take_countWhile, heq] at hc
        rcases List.mem_append.1 hc with hc | hc
        · exact digit_not_letter (List.mem_takeWhile_imp hc)
        · rw [show 1 + countWhile wsChar rest = countWhile wsChar rest + 1 by omega,
            List.take_succ_cons] at hc
          rcases hc with _ | hc
          · decide
          · next hc =>
            rw [take_countWhile] at hc
            exact ws_not_letter (List.mem_takeWhile_imp hc)
    case h_2 => exact absurd h (by simp)

/-- At fuel 0, `gsubF` is the identity. -/
theorem gsubF_zero (m : List Char → Option Nat) (repl l : List Char) :
    gsubF m repl 0 l = l := by
  cases l <;> rfl

/-- A substitution pass whose matched regions contain no letter
preserves the presence of a letter. -/
theorem gsubF_hasLetter (m : List Char → Option Nat) (repl : List Char)
    (hm : ∀ l k, m l = some k → ∀ c ∈ l.take k, letterChar c = false) :
    ∀ (fuel : Nat) (l : List Char), hasLetter l = true →
      hasLetter (gsubF m repl fuel l) = true := by
  intro fuel
  induction fuel with
  | zero => intro l h; rw [gsubF_zero]; exact h
  | succ fuel ih =>
    intro l h
    cases l with
    | nil => simpa [hasLetter] using h
    | cons c cs =>
      rw [gsubF]
      cases hm2 : m (c :: cs) with
      | none =>
        simp only [hasLetter, List.any_cons, Bool.or_eq_true] at h ⊢
        rcases h with h | h
        · exact Or.inl h
        · exact Or.inr (ih cs h)
      | some k =>
        cases k with
        | zero =>
          simp only [hasLetter, List.any_cons, Bool.or_eq_true] at h ⊢
          rcases h with h | h
          · exact Or.inl h
          · exact Or.inr (ih cs h)
        | succ k' =>
          simp only [hasLetter, List.any_eq_true] at h
          rcases h with ⟨x, hx, hpx⟩
          rcases List.mem_append.1
              ((List.take_append_drop (k' + 1) (c :: cs)) ▸ hx) with hx2 | hx2
          · exact absurd hpx (by simp [hm _ _ hm2 x hx2])
          · rw [List.drop_succ_cons] at hx2
            have := ih (cs.drop k') (List.any_eq_true.2 ⟨x, hx2, hpx⟩)
            simp only [hasLetter, List.any_append, Bool.or_eq_true] at this ⊢
            exact Or.inr this

/-- A substitution pass whose replacement contains a letter preserves
the presence of a letter. -/
theorem gsubF_hasLetter_repl (m : List Char → Option Nat) (repl : List Char)
    (hr : hasLetter repl = true) :
    ∀ (fuel : Nat) (l : List Char), hasLetter l = true →
      hasLetter (gsubF m repl fuel l) = true := by
  intro fuel
  induction fuel with
  | zero => intro l h; rw [gsubF_zero]; exact h
  | succ fuel ih =>
    intro l h
    cases l with
    | nil => simpa [hasLetter] using h
    | cons c cs =>
      rw [gsubF]
      cases hm2 : m (c :: cs) with
      | none =>
        simp only [hasLetter, List.any_cons, Bool.or_eq_true] at h ⊢
        rcases h with h | h
        · exact Or.inl h
        · exact Or.inr (ih cs h)
      | some k =>
        cases k with
        | zero =>
          simp only [hasLetter, List.any_cons, Bool.or_eq_true] at h ⊢
          rcases h with h | h
          · exact Or.inl h
          · exact Or.inr (ih cs h)
        | succ k' =>
          simp only [hasLetter, List.any_append, Bool.or_eq_true]
          exact Or.inl hr

/-- A character that does not satisfy `p` survives `dropWhile p`. -/
theorem mem_dropWhile_of_not {p : Char → Bool} {x : Char} {l : List Char}
    (hx : p x = false) (hl : x ∈ l) : x ∈ l.dropWhile p := by
  have hsplit : x ∈ l.takeWhile p ++ l.dropWhile p := by
    rw [List.takeWhile_append_dropWhile]; exact hl
  rcases List.mem_append.1 hsplit with h | h
  · exact absurd (List.mem_takeWhile_imp h) (by simp [hx])
  · exact h

/-- A letter of `l` survives `trim l`. -/
theorem mem_trim_of_not_ws {x : Char} {l : List Char} (hx : wsChar x = false)
    (hl : x ∈ l) : x ∈ trim l := by
  unfold trim
  rw [List.mem_reverse]
  exact mem_dropWhile_of_not hx (by
    rw [List.mem_reverse]
    exact mem_dropWhile_of_not hx hl)

/-- Note: `trim` preserves the presence of a letter. -/
theorem hasLetter_trim {l : List Char} (h : hasLetter l = true) :
    hasLetter (trim l) = true := by
  rcases List.any_eq_true.1 h with ⟨x, hx, hpx⟩
  exact List.any_eq_true.2 ⟨x, mem_trim_of_not_ws (letter_not_ws hpx) hx, hpx⟩

/-- A string with a letter is non-empty. -/
theorem ne_nil_of_hasLetter {l : List Char} (h : hasLetter l = true) : l ≠ [] := by
  intro hl
  subst hl
  simp [hasLetter] at h

/-- Every pass of `cleanDescription` preserves the presence of a
letter: the first, third, fourth, fifth, sixth and seventh pass only
consume letter-free regions, and the second pass replaces its matches
with letter-bearing text. -/
theorem hasLetter_cleanDescription {text : List Char} (h : hasLetter text = true) :
    hasLetter (cleanDescription text) = true := by
  unfold cleanDescription gsub
  apply hasLetter_trim
  apply gsubF_hasLetter _ _ (fun _ _ hs => wsRunM_region hs)
  apply gsubF_hasLetter _ _ (fun _ _ hs => commaM_region hs)
  apply gsubF_hasLetter _ _ (fun _ _ hs => periodM_region hs)
  apply gsubF_hasLetter _ _ (fun _ _ hs => nlRunM_region hs)
  apply gsubF_hasLetter _ _ (fun _ _ hs => wsRunM_region hs)
  apply gsubF_hasLetter_repl _ _ (by decide)
  apply gsubF_hasLetter _ _ (fun _ _ hs => numberedPointM_region hs)
  exact h

/-- Note: `formatDescription` of a letter-bearing string is non-empty. -/
theorem formatDescription_ne_nil {d : List Char} (h : hasLetter d = true) :
    formatDescription d ≠ [] := by
  unfold formatDescription
  have hd : d.isEmpty = false := by
    cases d with
    | nil => simp [hasLetter] at h
    | cons a as => rfl
  rw [hd]
  simp only [Bool.false_eq_true, if_false]
  split
  · exact ne_nil_of_hasLetter (hasLetter_cleanDescription h)
  · simp

/-- Counterexample to claim C1 as stated: for the non-empty url
`"http://x"` and the non-empty content `"."`, both the title and the
keywords of the fallback `PageMetadata` are empty (the text before the
first period is empty and no word survives the keyword filter). -/
theorem c1_counterexample :
    chars "." ≠ [] ∧
    ∃ pm, generateLLMMetadata 0 (chars "http://x") (chars ".")
        (fun _ => .error (JsError.remoteError 0)) = .ok pm ∧
      pm.title = [] ∧ pm.keywords = [] := by
  refine ⟨by decide, outerFallback 0 (chars "http://x") (chars "."), rfl, ?_, ?_⟩
  · show trim (mainTopicOf (chars ".")) = []
    decide
  · show extractKeywords (chars ".") = []
    decide

/-- Claim C1 as amended: on both fallback paths of
`generateLLMMetadata` (retry exhaustion and parse/validation failure),
the returned `PageMetadata` has a non-empty description for every url
and content — the fixed template always contributes letters that
survive the cleaning pipeline — and additionally non-empty url, title
and keywords provided the url is non-empty, the text before the first
period of the content contains a non-whitespace character, and
`extractKeywords` of the content is non-empty.  (As stated the claim
fails: title, keywords and url can each be empty, see the
counterexample.) -/
theorem c1_fallback_nonempty_fields (idv : Nat) (url content : List Char)
    (hu : url ≠ [])
    (ht : ∃ x ∈ mainTopicOf content, wsChar x = false)
    (hk : extractKeywords content ≠ []) :
    (∀ e : JsError, ∃ pm,
      generateLLMMetadata idv url content (fun _ => .error e) = .ok pm ∧
      pm.url ≠ [] ∧ pm.title ≠ [] ∧ pm.description ≠ [] ∧ pm.keywords ≠ []) ∧
    (∀ p : ParseResult, (successBody idv url p).isOk = false → ∃ pm,
      generateLLMMetadata idv url content (fun _ => .ok p) = .ok pm ∧
      pm.url ≠ [] ∧ pm.title ≠ [] ∧ pm.description ≠ [] ∧ pm.keywords ≠ []) := by
  rcases ht with ⟨x, hxmem, hxws⟩
  have htitle : trim (mainTopicOf content) ≠ [] := by
    intro hnil
    have := mem_trim_of_not_ws hxws hxmem
    rw [hnil] at this
    exact absurd this (List.not_mem_nil x)
  constructor
  · intro e
    refine ⟨outerFallback idv url content, rfl, hu, htitle, ?_, hk⟩
    simp only [outerFallback]
    apply formatDescription_ne_nil
    simp only [hasLetter, List.any_append, Bool.or_eq_true]
    exact Or.inl (Or.inl (by decide))
  · intro p hp
    cases h2 : successBody idv url p with
    | ok pm => rw [h2] at hp; simp [Except.isOk, Except.toBool] at hp
    | error e =>
      refine ⟨innerFallback idv url content, ?_, hu, htitle, ?_, hk⟩
      · have hret : (retryWithBackoff (fun _ => Except.ok p : Nat → Except JsError ParseResult)
            3 1000).result = .ok p := rfl
        unfold generateLLMMetadata
        rw [hret]
        simp [h2]
      · simp only [innerFallback]
        apply formatDescription_ne_nil
        simp only [hasLetter, List.any_append, Bool.or_eq_true]
        exact Or.inl (Or.inl (by decide))

/-- Witness for C1 (amended) at a concrete input on the
retry-exhaustion path. -/
theorem c1_fallback_nonempty_fields_witness :
    ∃ pm, generateLLMMetadata 0 (chars "http://x")
        (chars "Healthy eating matters. It helps you.")
        (fun _ => .error (JsError.remoteError 0)) = .ok pm ∧
      pm.url ≠ [] ∧ pm.title ≠ [] ∧ pm.description ≠ [] ∧ pm.keywords ≠ [] :=
  (c1_fallback_nonempty_fields 0 (chars "http://x")
    (chars "Healthy eating matters. It helps you.") (by decide) (by decide)
    (by decide)).1 (JsError.remoteError 0)

/-! ## Fixed-point and decomposition lemmas for the cleaning passes (for C6) -/

/-- Note: `gsubF` on the empty string. -/
theorem gsubF_nil (m : List Char → Option Nat) (repl : List Char) (fuel : Nat) :
    gsubF m repl fuel [] = [] := by
  cases fuel <;> rfl

/-- A pass whose matcher fires on no suffix is the identity. -/
theorem gsubF_id (m : List Char → Option Nat) (repl : List Char) :
    ∀ (fuel : Nat) (l : List Char), (∀ u, u <:+ l → m u = none) →
      gsubF m repl fuel l = l := by
  intro fuel
  induction fuel with
  | zero => intro l _; exact gsubF_zero m repl l
  | succ fuel ih =>
    intro l h
    cases l with
    | nil => rfl
    | cons c cs =>
      have hm := h (c :: cs) List.suffix_rfl
      simp only [gsubF, hm]
      exact congrArg (c :: .) (ih cs fun u hu => h u (hu.trans (List.suffix_cons c cs)))

/-- Scanning an append whose left block admits no match (even when
continued by the right block) walks through the left block
unchanged. -/
theorem gsubF_append_block (m : List Char → Option Nat) (repl : List Char) (t : List Char) :
    ∀ (s : List Char) (fuel : Nat), s.length ≤ fuel →
      (∀ u, u <:+ s → u ≠ [] → m (u ++ t) = none) →
      gsubF m repl fuel (s ++ t) = s ++ gsubF m repl (fuel - s.length) t := by
  intro s
  induction s with
  | nil => intro fuel _ _; simp
  | cons c s' ih =>
    intro fuel hf h
    cases fuel with
    | zero => simp at hf
    | succ fuel =>
      have hm : m (c :: (s' ++ t)) = none := by
        have := h (c :: s') List.suffix_rfl (by simp)
        simpa using this
      simp only [List.cons_append, gsubF, List.append_eq, hm]
      rw [ih fuel (by simpa using hf)
        (fun u hu hne => h u (hu.trans (List.suffix_cons c s')) hne)]
      rw [List.length_cons]
      have harith : fuel + 1 - (s'.length + 1) = fuel - s'.length := by omega
      rw [harith]

/-- Note: `countWhile` at a failing head. -/
theorem countWhile_cons_of_neg {p : Char → Bool} {c : Char} (h : p c = false)
    (cs : List Char) : countWhile p (c :: cs) = 0 := by
  simp [countWhile, List.takeWhile_cons, h]

/-- Note: `countWhile` at a satisfying head. -/
theorem countWhile_cons_of_pos {p : Char → Bool} {c : Char} (h : p c = true)
    (cs : List Char) : countWhile p (c :: cs) = countWhile p cs + 1 := by
  simp [countWhile, List.takeWhile_cons, h]

/-- Note: `countWhile` of a string none of whose characters satisfies the
predicate. -/
theorem countWhile_eq_zero {p : Char → Bool} {l : List Char}
    (h : ∀ c ∈ l, p c = false) : countWhile p l = 0 := by
  cases l with
  | nil => rfl
  | cons c cs => exact countWhile_cons_of_neg (h c (List.mem_cons_self c cs)) cs

/-- Note: `wsRunM` does not fire on a non-whitespace head. -/
theorem wsRunM_none_head {c : Char} (h : wsChar c = false) (cs : List Char) :
    wsRunM (c :: cs) = none := by
  simp [wsRunM, countWhile_cons_of_neg h]

/-- Note: `wsRunM` consumes exactly one character at a single space. -/
theorem wsRunM_single {c : Char} (hc : wsChar c = true) {cs : List Char}
    (h : ∀ d, cs.head? = some d → wsChar d = false) :
    wsRunM (c :: cs) = some 1 := by
  cases cs with
  | nil => simp [wsRunM, countWhile, List.takeWhile, hc]
  | cons d ds =>
    have hd : wsChar d = false := h d rfl
    simp [wsRunM, countWhile_cons_of_pos hc, countWhile_cons_of_neg hd]

/-- Note: `numberedPointM` never fires on a digit-free string. -/
theorem numberedPointM_none {l : List Char} (h : ∀ c ∈ l, digitChar c = false) :
    numberedPointM l = none := by
  simp [numberedPointM, countWhile_eq_zero h]

/-- Note: `hereAreM` never fires on a digit-free string. -/
theorem hereAreM_none {l : List Char} (h : ∀ c ∈ l, digitChar c = false) :
    hereAreM l = none := by
  by_cases hp : ciLit (chars "here are ") l = true
  · have h9 : ∀ c ∈ l.drop 9, digitChar c = false :=
      fun c hc => h c (List.drop_subset _ _ hc)
    simp [hereAreM, hp, countWhile_eq_zero h9]
  · simp [hereAreM, hp]

/-- Note: `nlRunM` never fires on a newline-free string. -/
theorem nlRunM_none {l : List Char} (h : ('\n' : Char) ∉ l) : nlRunM l = none := by
  have hcont : (l.takeWhile wsChar).contains '\n' = false := by
    by_cases hc : (l.takeWhile wsChar).contains '\n' = true
    · exfalso
      apply h
      have hmem : ('\n' : Char) ∈ l.takeWhile wsChar := by simpa using hc
      have : ('\n' : Char) ∈ l.takeWhile wsChar ++ l.dropWhile wsChar :=
        List.mem_append.2 (Or.inl hmem)
      rwa [List.takeWhile_append_dropWhile] at this
    · simpa using hc
  simp [nlRunM, hcont]
  intro _
  simpa using hcont

/-- Note: `commaM` never fires on a comma-free string. -/
theorem commaM_none {l : List Char} (h : (',' : Char) ∉ l) : commaM l = none := by
  simp only [commaM]
  split
  case h_1 rest heq =>
    exfalso
    apply h
    have hmem : (',' : Char) ∈ l.drop (countWhile wsChar l) := by
      rw [heq]; exact List.mem_cons_self ',' rest
    exact List.drop_subset _ _ hmem
  case h_2 => rfl

/-- Note: `periodM` does not fire on a head that is neither whitespace nor a
period. -/
theorem periodM_none_head {c : Char} (hw : wsChar c = false) (hc : (c == '.') = false)
    (l : List Char) : periodM (c :: l) = none := by
  simp only [periodM, countWhile_cons_of_neg hw, List.drop_zero]
  split
  case h_1 rest heq =>
    exfalso
    have : c = '.' := (List.cons.injEq .. ▸ heq).1
    rw [this] at hc
    simp at hc
  case h_2 => rfl

/-- Note: `periodM` does not fire at a single space followed by a character
that is neither whitespace nor a period. -/
theorem periodM_none_space {d : Char} (hd : wsChar d = false) (hdot : (d == '.') = false)
    (l : List Char) : periodM (' ' :: d :: l) = none := by
  have h1 : countWhile wsChar (' ' :: d :: l) = 1 := by
    rw [countWhile_cons_of_pos (by decide), countWhile_cons_of_neg hd]
  simp only [periodM, h1, List.drop_succ_cons, List.drop_zero]
  split
  case h_1 rest heq =>
    exfalso
    have : d = '.' := (List.cons.injEq .. ▸ heq).1
    rw [this] at hdot
    simp at hdot
  case h_2 => rfl

/-- Note: `termWsM` only fires at a sentence terminator. -/
theorem termWsM_none_head {c : Char} (h : (c == '.' || c == '?' || c == '!') = false)
    (l : List Char) : termWsM (c :: l) = none := by
  simp [termWsM, h]

/-- A letter differs from any non-letter character. -/
theorem letter_ne {c x : Char} (hc : letterChar c = true) (hx : letterChar x = false) :
    (c == x) = false := by
  by_cases h : c = x
  · subst h
    rw [hc] at hx
    exact absurd hx (by simp)
  · simp [h]

/-- Note: `noWsPair` passes to the tail. -/
theorem noWsPair_tail {c : Char} {cs : List Char} (h : noWsPair (c :: cs) = true) :
    noWsPair cs = true := by
  cases cs with
  | nil => rfl
  | cons d ds =>
    simp only [noWsPair, Bool.and_eq_true] at h
    exact h.2

/-- In a `noWsPair` string, the character after a whitespace character
is not whitespace. -/
theorem noWsPair_head {c d : Char} {ds : List Char} (h : noWsPair (c :: d :: ds) = true)
    (hc : wsChar c = true) : wsChar d = false := by
  simp only [noWsPair, Bool.and_eq_true, Bool.not_eq_true'] at h
  rcases h with ⟨h1, _⟩
  by_cases hd : wsChar d = true
  · rw [hc, hd] at h1
    exact absurd h1 (by simp)
  · simpa using hd

/-- Note: `noWsPair` passes to the right part of an append. -/
theorem noWsPair_append_right :
    ∀ (xs ys : List Char), noWsPair (xs ++ ys) = true → noWsPair ys = true := by
  intro xs
  induction xs with
  | nil => intro ys h; exact h
  | cons a xs' ih => intro ys h; exact ih ys (noWsPair_tail h)

/-- Note: `noWsPair` passes to suffixes. -/
theorem noWsPair_suffix {s u : List Char} (hs : noWsPair s = true) (hu : u <:+ s) :
    noWsPair u = true := by
  rcases hu with ⟨pre, hpre⟩
  exact noWsPair_append_right pre u (hpre ▸ hs)

/-- Extending a `noWsPair` string on the left of a string with a
non-whitespace head. -/
theorem noWsPair_cons_of {a : Char} {l : List Char} (h : noWsPair l = true)
    (hhead : ∀ b, l.head? = some b → (wsChar a && wsChar b) = false) :
    noWsPair (a :: l) = true := by
  cases l with
  | nil => rfl
  | cons b bs =>
    simp only [noWsPair, Bool.and_eq_true, Bool.not_eq_true']
    exact ⟨hhead b rfl, h⟩

/-- Appending preserves `noWsPair` when the right part starts with a
non-whitespace character. -/
theorem noWsPair_append :
    ∀ (xs ys : List Char), noWsPair xs = true → noWsPair ys = true →
      (∀ b, ys.head? = some b → wsChar b = false) → noWsPair (xs ++ ys) = true := by
  intro xs
  induction xs with
  | nil => intro ys _ hy _; exact hy
  | cons a xs' ih =>
    intro ys hx hy hh
    cases xs' with
    | nil =>
      cases ys with
      | nil => rfl
      | cons b bs =>
        simp only [List.nil_append, List.cons_append, noWsPair, Bool.and_eq_true,
          Bool.not_eq_true']
        exact ⟨by rw [hh b rfl]; simp, hy⟩
    | cons a2 xs'' =>
      simp only [List.cons_append, noWsPair, Bool.and_eq_true, Bool.not_eq_true'] at hx ⊢
      exact ⟨hx.1, by
        have := ih ys hx.2 hy hh
        simpa using this⟩

/-- A good sentence is non-empty. -/
theorem good_ne_nil {s : List Char} (hs : goodSentence s = true) : s ≠ [] := by
  simp only [goodSentence, Bool.and_eq_true] at hs
  rcases hs with ⟨⟨⟨⟨h, _⟩, _⟩, _⟩, _⟩
  simpa using h

/-- The characters of a good sentence are letters or spaces. -/
theorem good_chars {s : List Char} (hs : goodSentence s = true) :
    ∀ c ∈ s, letterChar c = true ∨ c = ' ' := by
  simp only [goodSentence, Bool.and_eq_true] at hs
  rcases hs with ⟨⟨⟨⟨_, hall⟩, _⟩, _⟩, _⟩
  intro c hc
  have := List.all_eq_true.1 hall c hc
  simpa using this

/-- The first character of a good sentence is a letter. -/
theorem good_head {s : List Char} (hs : goodSentence s = true) :
    ∀ c, s.head? = some c → letterChar c = true := by
  simp only [goodSentence, Bool.and_eq_true] at hs
  rcases hs with ⟨⟨⟨⟨_, _⟩, hh⟩, _⟩, _⟩
  intro c hc
  unfold headIsLetter at hh
  rw [hc] at hh
  exact hh

/-- The last character of a good sentence is a letter. -/
theorem good_last {s : List Char} (hs : goodSentence s = true) :
    ∀ c, s.getLast? = some c → letterChar c = true := by
  simp only [goodSentence, Bool.and_eq_true] at hs
  rcases hs with ⟨⟨⟨⟨_, _⟩, _⟩, hl⟩, _⟩
  intro c hc
  unfold lastIsLetter at hl
  rw [hc] at hl
  exact hl

/-- A good sentence has no two adjacent whitespace characters. -/
theorem good_pair {s : List Char} (hs : goodSentence s = true) : noWsPair s = true := by
  simp only [goodSentence, Bool.and_eq_true] at hs
  exact hs.2

/-- Shape of a non-empty suffix of a good sentence: it starts with a
letter, or with a single space followed by a letter. -/
theorem good_suffix_shape {s : List Char} (hs : goodSentence s = true) :
    ∀ u, u <:+ s → u ≠ [] →
      ∃ c u2, u = c :: u2 ∧
        (letterChar c = true ∨
          (c = ' ' ∧ ∃ d u3, u2 = d :: u3 ∧ letterChar d = true)) := by
  intro u hu hne
  cases u with
  | nil => exact absurd rfl hne
  | cons c u2 =>
    refine ⟨c, u2, rfl, ?_⟩
    have hcmem : c ∈ s := hu.subset (List.mem_cons_self c u2)
    rcases good_chars hs c hcmem with hletter | hspace
    · exact Or.inl hletter
    · right
      refine ⟨hspace, ?_⟩
      cases u2 with
      | nil =>
        exfalso
        rcases hu with ⟨pre, hpre⟩
        have hlast : s.getLast? = some c := by
          rw [← hpre]
          rw [List.getLast?_append_of_ne_nil pre (by simp)]
          rfl
        have hlet := good_last hs c hlast
        rw [hspace] at hlet
        exact absurd hlet (by decide)
      | cons d u3 =>
        refine ⟨d, u3, rfl, ?_⟩
        have hdmem : d ∈ s := hu.subset (by simp)
        rcases good_chars hs d hdmem with h | h
        · exact h
        · exfalso
          have hp : noWsPair (c :: d :: u3) = true := noWsPair_suffix (good_pair hs) hu
          rw [hspace, h] at hp
          simp [noWsPair] at hp
          exact absurd hp.1 (by decide)

/-- Note: `periodM` fires on no non-empty suffix of a good sentence, whatever
follows it. -/
theorem good_periodM_suffix {s : List Char} (hs : goodSentence s = true) (t : List Char) :
    ∀ u, u <:+ s → u ≠ [] → periodM (u ++ t) = none := by
  intro u hu hne
  rcases good_suffix_shape hs u hu hne with ⟨c, u2, rfl, hshape⟩
  rcases hshape with hl | ⟨hc, d, u3, rfl, hd⟩
  · exact periodM_none_head (letter_not_ws hl) (letter_ne hl (by decide)) (u2 ++ t)
  · subst hc
    exact periodM_none_space (letter_not_ws hd) (letter_ne hd (by decide)) (u3 ++ t)

/-- Note: `termWsM` fires on no non-empty suffix of a good sentence, whatever
follows it. -/
theorem good_termWsM_suffix {s : List Char} (hs : goodSentence s = true) (t : List Char) :
    ∀ u, u <:+ s → u ≠ [] → termWsM (u ++ t) = none := by
  intro u hu hne
  rcases good_suffix_shape hs u hu hne with ⟨c, u2, rfl, hshape⟩
  have hterm : (c == '.' || c == '?' || c == '!') = false := by
    rcases hshape with hl | ⟨hc, _⟩
    · simp [letter_ne hl (show letterChar '.' = false by decide),
        letter_ne hl (show letterChar '?' = false by decide),
        letter_ne hl (show letterChar '!' = false by decide)]
    · subst hc
      decide
  exact termWsM_none_head hterm (u2 ++ t)

/-- A single-space-normalised string is a fixed point of the `\s+`
pass. -/
theorem gsubF_ws_single :
    ∀ (fuel : Nat) (l : List Char),
      (∀ c ∈ l, wsChar c = true → c = ' ') → noWsPair l = true →
      gsubF wsRunM [' '] fuel l = l := by
  intro fuel
  induction fuel with
  | zero => intro l _ _; exact gsubF_zero wsRunM [' '] l
  | succ fuel ih =>
    intro l hall hpair
    cases l with
    | nil => rfl
    | cons c cs =>
      by_cases hw : wsChar c = true
      · have hc : c = ' ' := hall c (List.mem_cons_self c cs) hw
        have hnext : ∀ d, cs.head? = some d → wsChar d = false := by
          intro d hd
          cases cs with
          | nil => simp at hd
          | cons d' ds =>
            have hd' : d' = d := by simpa using hd
            subst hd'
            exact noWsPair_head hpair hw
        have hm := wsRunM_single hw hnext
        simp only [gsubF, hm, List.drop_zero]
        rw [ih cs (fun x hx hwx => hall x (List.mem_cons_of_mem c hx) hwx)
          (noWsPair_tail hpair)]
        rw [hc]
        rfl
      · have hm := wsRunM_none_head (by simpa using hw) cs
        simp only [gsubF, hm]
        exact congrArg (c :: .)
          (ih cs (fun x hx hwx => hall x (List.mem_cons_of_mem c hx) hwx)
            (noWsPair_tail hpair))

/-- Note: `splitMF` on the exhausted input. -/
theorem splitMF_nil (m : List Char → Option Nat) (fuel : Nat) (acc : List Char) :
    splitMF m fuel acc [] = [acc.reverse] := by
  cases fuel <;> rfl

/-- Splitting walks through a block admitting no match, accumulating
it. -/
theorem splitMF_append_block (m : List Char → Option Nat) (t : List Char) :
    ∀ (s : List Char) (fuel : Nat) (acc : List Char), s.length ≤ fuel →
      (∀ u, u <:+ s → u ≠ [] → m (u ++ t) = none) →
      splitMF m fuel acc (s ++ t) = splitMF m (fuel - s.length) (s.reverse ++ acc) t := by
  intro s
  induction s with
  | nil => intro fuel acc _ _; simp
  | cons c s' ih =>
    intro fuel acc hf h
    cases fuel with
    | zero => simp at hf
    | succ fuel =>
      have hm : m (c :: (s' ++ t)) = none := by
        have := h (c :: s') List.suffix_rfl (by simp)
        simpa using this
      simp only [List.cons_append, splitMF, List.append_eq, hm]
      rw [ih fuel (c :: acc) (by simpa using hf)
        (fun u hu hne => h u (hu.trans (List.suffix_cons c s')) hne)]
      rw [List.length_cons]
      have harith : fuel + 1 - (s'.length + 1) = fuel - s'.length := by omega
      rw [harith]
      congr 1
      simp

/-- Note: `dropWhile` is the identity when the head does not satisfy the
predicate. -/
theorem dropWhile_eq_self_of_head {p : Char → Bool} {l : List Char}
    (h : ∀ c, l.head? = some c → p c = false) : l.dropWhile p = l := by
  cases l with
  | nil => rfl
  | cons c cs => simp [List.dropWhile_cons, h c rfl]

/-- Note: `trim` is the identity on a string with non-whitespace ends. -/
theorem trim_eq_self {l : List Char}
    (hh : ∀ c, l.head? = some c → wsChar c = false)
    (hl : ∀ c, l.getLast? = some c → wsChar c = false) : trim l = l := by
  unfold trim
  have e2 : (l.reverse).dropWhile wsChar = l.reverse := by
    apply dropWhile_eq_self_of_head
    intro c hc
    rw [List.head?_reverse] at hc
    exact hl c hc
  rw [dropWhile_eq_self_of_head hh, e2]
  exact List.reverse_reverse l

/-- Note: `dropWhile` jumps over a fully satisfying left block. -/
theorem dropWhile_append_of_all {p : Char → Bool} {xs : List Char} (ys : List Char)
    (h : ∀ c ∈ xs, p c = true) : (xs ++ ys).dropWhile p = ys.dropWhile p := by
  induction xs with
  | nil => rfl
  | cons c cs ih =>
    simp only [List.cons_append, List.dropWhile_cons, h c (List.mem_cons_self c cs)]
    exact ih (fun x hx => h x (List.mem_cons_of_mem c hx))

/-- Note: `trim` removes a trailing whitespace block from a string with
non-whitespace ends. -/
theorem trim_append_junkws {l : List Char} (junk : List Char) (hne : l ≠ [])
    (hj : ∀ c ∈ junk, wsChar c = true)
    (hh : ∀ c, l.head? = some c → wsChar c = false)
    (hl : ∀ c, l.getLast? = some c → wsChar c = false) : trim (l ++ junk) = l := by
  unfold trim
  have e1 : (l ++ junk).dropWhile wsChar = l ++ junk := by
    apply dropWhile_eq_self_of_head
    intro c hc
    rw [List.head?_append_of_ne_nil _ hne] at hc
    exact hh c hc
  have e2 : (l.reverse).dropWhile wsChar = l.reverse := by
    apply dropWhile_eq_self_of_head
    intro c hc
    rw [List.head?_reverse] at hc
    exact hl c hc
  rw [e1, List.reverse_append,
    dropWhile_append_of_all _ (fun c hc => hj c (List.mem_reverse.1 hc)), e2]
  exact List.reverse_reverse l

/-- Trailing-period normalisation removes a trailing block of periods
and whitespace from a string whose last character is neither. -/
theorem strip_append_junk {l : List Char} (junk : List Char)
    (hj : ∀ c ∈ junk, (c == '.' || wsChar c) = true)
    (hl : ∀ c, l.getLast? = some c → (c == '.' || wsChar c) = false) :
    stripTrailingPeriodWs (l ++ junk) = l := by
  unfold stripTrailingPeriodWs
  rw [List.reverse_append]
  rw [dropWhile_append_of_all _ (fun c hc => hj c (List.mem_reverse.1 hc))]
  rw [dropWhile_eq_self_of_head
    (by intro c hc; rw [List.head?_reverse] at hc; exact hl c hc)]
  exact List.reverse_reverse l

/-- A letter is not a digit. -/
theorem letter_not_digit {c : Char} (h : letterChar c = true) : digitChar c = false := by
  simp only [letterChar, Bool.or_eq_true, Bool.and_eq_true, decide_eq_true_eq] at h
  simp only [digitChar, Bool.and_eq_false_iff]
  rcases h with h | h
  · right; simp only [decide_eq_false_iff_not, not_le]; omega
  · right; simp only [decide_eq_false_iff_not, not_le]; omega

/-- Character facts for a sentence followed by concrete punctuation. -/
theorem chars_concat {s k : List Char} (hs : goodSentence s = true)
    (hk : ∀ c ∈ k, c = '.' ∨ c = ' ') :
    ∀ c ∈ s ++ k, letterChar c = true ∨ c = ' ' ∨ c = '.' := by
  intro c hc
  rcases List.mem_append.1 hc with h | h
  · rcases good_chars hs c h with h1 | h1
    · exact Or.inl h1
    · exact Or.inr (Or.inl h1)
  · rcases hk c h with h1 | h1
    · exact Or.inr (Or.inr h1)
    · exact Or.inr (Or.inl h1)

/-- Character facts for two sentences joined by `". "` and followed by
concrete punctuation. -/
theorem chars_two_concat {s1 s2 k : List Char} (h1 : goodSentence s1 = true)
    (h2 : goodSentence s2 = true) (hk : ∀ c ∈ k, c = '.' ∨ c = ' ') :
    ∀ c ∈ s1 ++ '.' :: ' ' :: (s2 ++ k), letterChar c = true ∨ c = ' ' ∨ c = '.' := by
  intro c hc
  simp only [List.mem_append, List.mem_cons] at hc
  rcases hc with h | h | h | h | h
  · rcases good_chars h1 c h with hx | hx
    · exact Or.inl hx
    · exact Or.inr (Or.inl hx)
  · exact Or.inr (Or.inr h)
  · exact Or.inr (Or.inl h)
  · rcases good_chars h2 c h with hx | hx
    · exact Or.inl hx
    · exact Or.inr (Or.inl hx)
  · rcases hk c h with hx | hx
    · exact Or.inr (Or.inr hx)
    · exact Or.inr (Or.inl hx)

/-- Such strings are digit-free. -/
theorem sc_digit_free {L : List Char}
    (h : ∀ c ∈ L, letterChar c = true ∨ c = ' ' ∨ c = '.') :
    ∀ c ∈ L, digitChar c = false := by
  intro c hc
  rcases h c hc with h1 | h1 | h1
  · exact letter_not_digit h1
  · subst h1; decide
  · subst h1; decide

/-- Such strings are newline-free. -/
theorem sc_no_nl {L : List Char}
    (h : ∀ c ∈ L, letterChar c = true ∨ c = ' ' ∨ c = '.') :
    ('\n' : Char) ∉ L := by
  intro hmem
  rcases h _ hmem with h1 | h1 | h1
  · exact absurd h1 (by decide)
  · exact absurd h1 (by decide)
  · exact absurd h1 (by decide)

/-- Such strings are comma-free. -/
theorem sc_no_comma {L : List Char}
    (h : ∀ c ∈ L, letterChar c = true ∨ c = ' ' ∨ c = '.') :
    (',' : Char) ∉ L := by
  intro hmem
  rcases h _ hmem with h1 | h1 | h1
  · exact absurd h1 (by decide)
  · exact absurd h1 (by decide)
  · exact absurd h1 (by decide)

/-- In such strings every whitespace character is a space. -/
theorem sc_ws_space {L : List Char}
    (h : ∀ c ∈ L, letterChar c = true ∨ c = ' ' ∨ c = '.') :
    ∀ c ∈ L, wsChar c = true → c = ' ' := by
  intro c hc hw
  rcases h c hc with h1 | h1 | h1
  · rw [ws_not_letter hw] at h1
    exact absurd h1 (by simp)
  · exact h1
  · subst h1; exact absurd hw (by decide)

/-- Note: `periodM` at a `". "` separator followed by a non-whitespace
character consumes exactly the terminator and the one space. -/
theorem periodM_sep {x : Char} (hx : wsChar x = false) (l : List Char) :
    periodM ('.' :: ' ' :: x :: l) = some (Nat.succ 1) := by
  have h0 : countWhile wsChar ('.' :: ' ' :: x :: l) = 0 :=
    countWhile_cons_of_neg (by decide) _
  have h1 : countWhile wsChar (' ' :: x :: l) = 1 := by
    rw [countWhile_cons_of_pos (by decide), countWhile_cons_of_neg hx]
  simp [periodM, h0, h1]

/-- One step of the period pass at a `". "` separator. -/
theorem gsubF_periodM_sep {x : Char} (hx : wsChar x = false) (l : List Char) (fuel : Nat) :
    gsubF periodM (chars ". ") (fuel + 1) ('.' :: ' ' :: x :: l) =
      '.' :: ' ' :: gsubF periodM (chars ". ") fuel (x :: l) := by
  have hm := periodM_sep hx l
  simp only [gsubF, hm]
  rfl

/-- The period pass walks over a good sentence unchanged, whatever
follows. -/
theorem gsub_periodM_block {s : List Char} (hs : goodSentence s = true) (t : List Char) :
    gsub periodM (chars ". ") (s ++ t) = s ++ gsubF periodM (chars ". ") t.length t := by
  unfold gsub
  rw [gsubF_append_block _ _ t s _ (by simp) (good_periodM_suffix hs t)]
  have harith : (s ++ t).length - s.length = t.length := by simp
  rw [harith]

/-- Inner version of the period-pass block decomposition, for an
arbitrary sufficient fuel. -/
theorem gsubF_periodM_block {s : List Char} (hs : goodSentence s = true) (t : List Char)
    (fuel : Nat) (hf : s.length ≤ fuel) :
    gsubF periodM (chars ". ") fuel (s ++ t) =
      s ++ gsubF periodM (chars ". ") (fuel - s.length) t :=
  gsubF_append_block _ _ t s fuel hf (good_periodM_suffix hs t)

/-- The period pass on a lone final period, any sufficient fuel. -/
theorem gsubF_periodM_dot (fuel : Nat) (h : 1 ≤ fuel) :
    gsubF periodM (chars ". ") fuel ['.'] = chars ". " := by
  obtain ⟨f, rfl⟩ : ∃ f, fuel = f + 1 := ⟨fuel - 1, by omega⟩
  have hm : periodM ['.'] = some (Nat.succ 0) := by decide
  simp only [gsubF, hm]
  simp [gsubF_nil]

/-- The period pass on a final double period, any sufficient fuel. -/
theorem gsubF_periodM_dotdot (fuel : Nat) (h : 2 ≤ fuel) :
    gsubF periodM (chars ". ") fuel ['.', '.'] = ['.', ' ', '.', ' '] := by
  obtain ⟨f, rfl⟩ : ∃ f, fuel = f + 2 := ⟨fuel - 2, by omega⟩
  have hm : periodM ['.', '.'] = some (Nat.succ 0) := by decide
  simp only [gsubF, hm]
  have hm2 : periodM ['.'] = some (Nat.succ 0) := by decide
  simp only [hm2, List.drop_zero, gsubF_nil]
  rfl

/-- Generic evaluation scheme for `cleanDescription` on punctuation-safe
strings: the first four passes are the identity, the period pass
rewrites `L` to `M`, the comma pass and the final whitespace pass leave
`M` unchanged, and the result is `trim M`. -/
theorem cleanDescription_eq {L M : List Char}
    (hd : ∀ c ∈ L, digitChar c = false) (hn : ('\n' : Char) ∉ L)
    (hw : ∀ c ∈ L, wsChar c = true → c = ' ') (hp : noWsPair L = true)
    (hperiod : gsub periodM (chars ". ") L = M)
    (hcM : (',' : Char) ∉ M) (hwM : ∀ c ∈ M, wsChar c = true → c = ' ')
    (hpM : noWsPair M = true) :
    cleanDescription L = trim M := by
  have p1 : gsub numberedPointM [] L = L :=
    gsubF_id _ _ _ _ (fun u hu => numberedPointM_none (fun c hc => hd c (hu.subset hc)))
  have p2 : gsub hereAreM (chars "Discover essential tips for") L = L :=
    gsubF_id _ _ _ _ (fun u hu => hereAreM_none (fun c hc => hd c (hu.subset hc)))
  have p3 : gsub wsRunM [' '] L = L :=
    gsubF_ws_single _ _ hw hp
  have p4 : gsub nlRunM [' '] L = L :=
    gsubF_id _ _ _ _ (fun u hu => nlRunM_none (fun hm => hn (hu.subset hm)))
  have p6 : gsub commaM (chars ", ") M = M :=
    gsubF_id _ _ _ _ (fun u hu => commaM_none (fun hm => hcM (hu.subset hm)))
  have p7 : gsub wsRunM [' '] M = M :=
    gsubF_ws_single _ _ hwM hpM
  unfold cleanDescription
  rw [p1, p2, p3, p4, hperiod, p6, p7]

/-- Fuel-flexible version of the separator step of the period pass. -/
theorem gsubF_periodM_sep' {x : Char} (hx : wsChar x = false) (l : List Char) (fuel : Nat)
    (h : 1 ≤ fuel) :
    gsubF periodM (chars ". ") fuel ('.' :: ' ' :: x :: l) =
      '.' :: ' ' :: gsubF periodM (chars ". ") (fuel - 1) (x :: l) := by
  obtain ⟨f, rfl⟩ : ∃ f, fuel = f + 1 := ⟨fuel - 1, by omega⟩
  simpa using gsubF_periodM_sep hx l f

/-- Note: `noWsPair` for a sentence followed by punctuation. -/
theorem noWsPair_one {s k : List Char} (hs : goodSentence s = true) (hk : noWsPair k = true)
    (hk0 : ∀ b, k.head? = some b → wsChar b = false) : noWsPair (s ++ k) = true :=
  noWsPair_append _ _ (good_pair hs) hk hk0

/-- Note: `noWsPair` for two sentences joined by `". "` and followed by
punctuation. -/
theorem noWsPair_two {s1 s2 k : List Char} (h1 : goodSentence s1 = true)
    (h2 : goodSentence s2 = true) (hk : noWsPair k = true)
    (hk0 : ∀ b, k.head? = some b → wsChar b = false) :
    noWsPair (s1 ++ '.' :: ' ' :: (s2 ++ k)) = true := by
  apply noWsPair_append _ _ (good_pair h1)
  · apply noWsPair_cons_of
    · apply noWsPair_cons_of
      · exact noWsPair_append _ _ (good_pair h2) hk hk0
      · intro b hb
        obtain ⟨c2, t2, rfl⟩ := List.exists_cons_of_ne_nil (good_ne_nil h2)
        have hb2 : c2 = b := by simpa using hb
        subst hb2
        have hlet := good_head h2 c2 rfl
        simp [letter_not_ws hlet]
    · intro b hb
      have hb2 : (' ' : Char) = b := by simpa using hb
      subst hb2
      decide
  · intro b hb
    have hb2 : ('.' : Char) = b := by simpa using hb
    subst hb2
    decide

/-- The last character of a sentence-plus-punctuation string is the
last punctuation character. -/
theorem getLast_concat_punct {l : List Char} (k : List Char) (c : Char) (hk : k ≠ [])
    (hkl : k.getLast? = some c) : (l ++ k).getLast? = some c := by
  rw [List.getLast?_append_of_ne_nil l hk]
  exact hkl

/-- Note: `cleanDescription` fixes a good one-sentence text. -/
theorem clean_one {s : List Char} (hs : goodSentence s = true) :
    cleanDescription (s ++ ['.']) = s ++ ['.'] := by
  have hsc : ∀ c ∈ s ++ ['.'], letterChar c = true ∨ c = ' ' ∨ c = '.' :=
    chars_concat hs (by decide)
  have hMsc : ∀ c ∈ s ++ ['.', ' '], letterChar c = true ∨ c = ' ' ∨ c = '.' :=
    chars_concat hs (by decide)
  have hM : gsub periodM (chars ". ") (s ++ ['.']) = s ++ ['.', ' '] := by
    rw [gsub_periodM_block hs ['.']]
    rw [gsubF_periodM_dot _ (by simp)]
    rfl
  rw [cleanDescription_eq (sc_digit_free hsc) (sc_no_nl hsc) (sc_ws_space hsc)
    (noWsPair_one hs (by decide)
      (fun b hb => by
        have hb2 : ('.' : Char) = b := by simpa using hb
        subst hb2; decide))
    hM (sc_no_comma hMsc) (sc_ws_space hMsc)
    (noWsPair_one hs (by decide)
      (fun b hb => by
        have hb2 : ('.' : Char) = b := by simpa using hb
        subst hb2; decide))]
  have hsplit : s ++ ['.', ' '] = (s ++ ['.']) ++ [' '] := by simp
  rw [hsplit]
  apply trim_append_junkws _ (by simp) (by decide)
  · intro c hc
    rw [List.head?_append_of_ne_nil _ (good_ne_nil hs)] at hc
    exact letter_not_ws (good_head hs c hc)
  · intro c hc
    rw [getLast_concat_punct ['.'] '.' (by decide) rfl] at hc
    have hc2 : c = '.' := by simpa using hc.symm
    subst hc2
    decide

/-- Note: `cleanDescription` on a good one-sentence text with a doubled final
period separates the two periods. -/
theorem clean_one_dd {s : List Char} (hs : goodSentence s = true) :
    cleanDescription (s ++ ['.', '.']) = s ++ ['.', ' ', '.'] := by
  have hsc : ∀ c ∈ s ++ ['.', '.'], letterChar c = true ∨ c = ' ' ∨ c = '.' :=
    chars_concat hs (by decide)
  have hMsc : ∀ c ∈ s ++ ['.', ' ', '.', ' '], letterChar c = true ∨ c = ' ' ∨ c = '.' :=
    chars_concat hs (by decide)
  have hM : gsub periodM (chars ". ") (s ++ ['.', '.']) = s ++ ['.', ' ', '.', ' '] := by
    rw [gsub_periodM_block hs ['.', '.']]
    rw [gsubF_periodM_dotdot _ (by simp)]
  rw [cleanDescription_eq (sc_digit_free hsc) (sc_no_nl hsc) (sc_ws_space hsc)
    (noWsPair_one hs (by decide)
      (fun b hb => by
        have hb2 : ('.' : Char) = b := by simpa using hb
        subst hb2; decide))
    hM (sc_no_comma hMsc) (sc_ws_space hMsc)
    (noWsPair_one hs (by decide)
      (fun b hb => by
        have hb2 : ('.' : Char) = b := by simpa using hb
        subst hb2; decide))]
  have hsplit : s ++ ['.', ' ', '.', ' '] = (s ++ ['.', ' ', '.']) ++ [' '] := by simp
  rw [hsplit]
  apply trim_append_junkws _ (by simp) (by decide)
  · intro c hc
    rw [List.head?_append_of_ne_nil _ (good_ne_nil hs)] at hc
    exact letter_not_ws (good_head hs c hc)
  · intro c hc
    rw [getLast_concat_punct ['.', ' ', '.'] '.' (by decide) rfl] at hc
    have hc2 : c = '.' := by simpa using hc.symm
    subst hc2
    decide

/-- The period pass on a two-sentence body with a single final
period. -/
theorem gsub_periodM_two {s1 s2 : List Char} (h1 : goodSentence s1 = true)
    (h2 : goodSentence s2 = true) :
    gsub periodM (chars ". ") (s1 ++ '.' :: ' ' :: (s2 ++ ['.'])) =
      s1 ++ '.' :: ' ' :: (s2 ++ ['.', ' ']) := by
  rw [gsub_periodM_block h1 ('.' :: ' ' :: (s2 ++ ['.']))]
  congr 1
  obtain ⟨c2, t2, rfl⟩ := List.exists_cons_of_ne_nil (good_ne_nil h2)
  simp only [List.cons_append]
  rw [gsubF_periodM_sep' (letter_not_ws (good_head h2 c2 rfl)) _ _ (by simp)]
  congr 1
  congr 1
  rw [show (c2 :: (t2 ++ ['.']) : List Char) = (c2 :: t2) ++ ['.'] from rfl]
  rw [gsubF_periodM_block h2 ['.'] _ (by simp)]
  rw [gsubF_periodM_dot _ (by simp)]
  rfl

/-- The period pass on a two-sentence body with a doubled final
period. -/
theorem gsub_periodM_two_dd {s1 s2 : List Char} (h1 : goodSentence s1 = true)
    (h2 : goodSentence s2 = true) :
    gsub periodM (chars ". ") (s1 ++ '.' :: ' ' :: (s2 ++ ['.', '.'])) =
      s1 ++ '.' :: ' ' :: (s2 ++ ['.', ' ', '.', ' ']) := by
  rw [gsub_periodM_block h1 ('.' :: ' ' :: (s2 ++ ['.', '.']))]
  congr 1
  obtain ⟨c2, t2, rfl⟩ := List.exists_cons_of_ne_nil (good_ne_nil h2)
  simp only [List.cons_append]
  rw [gsubF_periodM_sep' (letter_not_ws (good_head h2 c2 rfl)) _ _ (by simp)]
  congr 1
  congr 1
  rw [show (c2 :: (t2 ++ ['.', '.']) : List Char) = (c2 :: t2) ++ ['.', '.'] from rfl]
  rw [gsubF_periodM_block h2 ['.', '.'] _ (by simp)]
  rw [gsubF_periodM_dotdot _ (by simp)]
  rfl

/-- Note: `cleanDescription` fixes a good two-sentence text. -/
theorem clean_two {s1 s2 : List Char} (h1 : goodSentence s1 = true)
    (h2 : goodSentence s2 = true) :
    cleanDescription (s1 ++ '.' :: ' ' :: (s2 ++ ['.'])) =
      s1 ++ '.' :: ' ' :: (s2 ++ ['.']) := by
  have hsc : ∀ c ∈ s1 ++ '.' :: ' ' :: (s2 ++ ['.']),
      letterChar c = true ∨ c = ' ' ∨ c = '.' :=
    chars_two_concat h1 h2 (by decide)
  have hMsc : ∀ c ∈ s1 ++ '.' :: ' ' :: (s2 ++ ['.', ' ']),
      letterChar c = true ∨ c = ' ' ∨ c = '.' :=
    chars_two_concat h1 h2 (by decide)
  rw [cleanDescription_eq (sc_digit_free hsc) (sc_no_nl hsc) (sc_ws_space hsc)
    (noWsPair_two h1 h2 (by decide)
      (fun b hb => by
        have hb2 : ('.' : Char) = b := by simpa using hb
        subst hb2; decide))
    (gsub_periodM_two h1 h2) (sc_no_comma hMsc) (sc_ws_space hMsc)
    (noWsPair_two h1 h2 (by decide)
      (fun b hb => by
        have hb2 : ('.' : Char) = b := by simpa using hb
        subst hb2; decide))]
  have hsplit : s1 ++ '.' :: ' ' :: (s2 ++ ['.', ' ']) =
      (s1 ++ '.' :: ' ' :: (s2 ++ ['.'])) ++ [' '] := by simp
  rw [hsplit]
  apply trim_append_junkws _ (by simp) (by decide)
  · intro c hc
    rw [List.head?_append_of_ne_nil _ (good_ne_nil h1)] at hc
    exact letter_not_ws (good_head h1 c hc)
  · intro c hc
    have hlast : (s1 ++ '.' :: ' ' :: (s2 ++ ['.'])).getLast? = some '.' := by
      rw [List.getLast?_append_of_ne_nil s1 (by simp)]
      rw [show ('.' :: ' ' :: (s2 ++ ['.']) : List Char) =
        ['.', ' '] ++ (s2 ++ ['.']) from rfl]
      rw [List.getLast?_append_of_ne_nil (['.', ' ']) (by simp)]
      rw [List.getLast?_append_of_ne_nil s2 (by decide)]
      rfl
    rw [hlast] at hc
    have hc2 : c = '.' := by simpa using hc.symm
    subst hc2
    decide

/-- Note: `cleanDescription` on a good two-sentence text with a doubled final
period separates the two final periods. -/
theorem clean_two_dd {s1 s2 : List Char} (h1 : goodSentence s1 = true)
    (h2 : goodSentence s2 = true) :
    cleanDescription (s1 ++ '.' :: ' ' :: (s2 ++ ['.', '.'])) =
      s1 ++ '.' :: ' ' :: (s2 ++ ['.', ' ', '.']) := by
  have hsc : ∀ c ∈ s1 ++ '.' :: ' ' :: (s2 ++ ['.', '.']),
      letterChar c = true ∨ c = ' ' ∨ c = '.' :=
    chars_two_concat h1 h2 (by decide)
  have hMsc : ∀ c ∈ s1 ++ '.' :: ' ' :: (s2 ++ ['.', ' ', '.', ' ']),
      letterChar c = true ∨ c = ' ' ∨ c = '.' :=
    chars_two_concat h1 h2 (by decide)
  rw [cleanDescription_eq (sc_digit_free hsc) (sc_no_nl hsc) (sc_ws_space hsc)
    (noWsPair_two h1 h2 (by decide)
      (fun b hb => by
        have hb2 : ('.' : Char) = b := by simpa using hb
        subst hb2; decide))
    (gsub_periodM_two_dd h1 h2) (sc_no_comma hMsc) (sc_ws_space hMsc)
    (noWsPair_two h1 h2 (by decide)
      (fun b hb => by
        have hb2 : ('.' : Char) = b := by simpa using hb
        subst hb2; decide))]
  have hsplit : s1 ++ '.' :: ' ' :: (s2 ++ ['.', ' ', '.', ' ']) =
      (s1 ++ '.' :: ' ' :: (s2 ++ ['.', ' ', '.'])) ++ [' '] := by simp
  rw [hsplit]
  apply trim_append_junkws _ (by simp) (by decide)
  · intro c hc
    rw [List.head?_append_of_ne_nil _ (good_ne_nil h1)] at hc
    exact letter_not_ws (good_head h1 c hc)
  · intro c hc
    have hlast : (s1 ++ '.' :: ' ' :: (s2 ++ ['.', ' ', '.'])).getLast? = some '.' := by
      rw [List.getLast?_append_of_ne_nil s1 (by simp)]
      rw [show ('.' :: ' ' :: (s2 ++ ['.', ' ', '.']) : List Char) =
        ['.', ' '] ++ (s2 ++ ['.', ' ', '.']) from rfl]
      rw [List.getLast?_append_of_ne_nil (['.', ' ']) (by simp)]
      rw [List.getLast?_append_of_ne_nil s2 (by decide)]
      rfl
    rw [hlast] at hc
    have hc2 : c = '.' := by simpa using hc.symm
    subst hc2
    decide

/-- Note: `termWsM` at a `". "` separator followed by a non-whitespace
character consumes the terminator and the one space. -/
theorem termWsM_sep {x : Char} (hx : wsChar x = false) (l : List Char) :
    termWsM ('.' :: ' ' :: x :: l) = some (Nat.succ 1) := by
  have h1 : countWhile wsChar (' ' :: x :: l) = 1 := by
    rw [countWhile_cons_of_pos (by decide), countWhile_cons_of_neg hx]
  simp [termWsM, h1]

/-- One separator step of the sentence split. -/
theorem splitMF_termWs_sep {x : Char} (hx : wsChar x = false) (l acc : List Char)
    (fuel : Nat) (h : 1 ≤ fuel) :
    splitMF termWsM fuel acc ('.' :: ' ' :: x :: l) =
      acc.reverse :: splitMF termWsM (fuel - 1) [] (x :: l) := by
  obtain ⟨f, rfl⟩ : ∃ f, fuel = f + 1 := ⟨fuel - 1, by omega⟩
  have hm := termWsM_sep hx l
  simp only [splitMF, hm]
  rfl

/-- The sentence split swallows a lone final period into the current
piece. -/
theorem splitMF_dot_end (acc : List Char) (fuel : Nat) (h : 1 ≤ fuel) :
    splitMF termWsM fuel acc ['.'] = [acc.reverse ++ ['.']] := by
  obtain ⟨f, rfl⟩ : ∃ f, fuel = f + 1 := ⟨fuel - 1, by omega⟩
  have hm : termWsM ['.'] = none := by decide
  simp only [splitMF, hm]
  simp

/-- The sentence split walks over a good sentence, accumulating it. -/
theorem splitMF_term_block {s : List Char} (hs : goodSentence s = true)
    (t acc : List Char) (fuel : Nat) (hf : s.length ≤ fuel) :
    splitMF termWsM fuel acc (s ++ t) =
      splitMF termWsM (fuel - s.length) (s.reverse ++ acc) t :=
  splitMF_append_block termWsM t s fuel acc hf (good_termWsM_suffix hs t)

/-- Sentence split of a good one-sentence text: one piece. -/
theorem split_one {s : List Char} (hs : goodSentence s = true) :
    splitM termWsM (s ++ ['.']) = [s ++ ['.']] := by
  unfold splitM
  rw [splitMF_term_block hs ['.'] [] _ (by simp)]
  rw [splitMF_dot_end _ _ (by simp)]
  simp

/-- Sentence split of a good sentence followed by `". ."`: the sentence
and a lone period. -/
theorem split_one_mid {s : List Char} (hs : goodSentence s = true) :
    splitM termWsM (s ++ ['.', ' ', '.']) = [s, ['.']] := by
  unfold splitM
  rw [splitMF_term_block hs ['.', ' ', '.'] [] _ (by simp)]
  rw [splitMF_termWs_sep (by decide) [] _ _ (by simp)]
  rw [splitMF_dot_end [] _ (by simp)]
  simp

/-- Sentence split of a good two-sentence text: the first sentence and
the second with its final period. -/
theorem split_two {s1 s2 : List Char} (h1 : goodSentence s1 = true)
    (h2 : goodSentence s2 = true) :
    splitM termWsM (s1 ++ '.' :: ' ' :: (s2 ++ ['.'])) = [s1, s2 ++ ['.']] := by
  unfold splitM
  rw [splitMF_term_block h1 _ [] _ (by simp)]
  obtain ⟨c2, t2, rfl⟩ := List.exists_cons_of_ne_nil (good_ne_nil h2)
  simp only [List.cons_append]
  rw [splitMF_termWs_sep (letter_not_ws (good_head h2 c2 rfl)) _ _ _ (by simp)]
  rw [show (c2 :: (t2 ++ ['.']) : List Char) = (c2 :: t2) ++ ['.'] from rfl]
  rw [splitMF_term_block h2 ['.'] [] _ (by simp)]
  rw [splitMF_dot_end _ _ (by simp)]
  simp

/-- Sentence split of a good two-sentence text with a separated extra
period: both sentences and a lone period. -/
theorem split_two_mid {s1 s2 : List Char} (h1 : goodSentence s1 = true)
    (h2 : goodSentence s2 = true) :
    splitM termWsM (s1 ++ '.' :: ' ' :: (s2 ++ ['.', ' ', '.'])) = [s1, s2, ['.']] := by
  unfold splitM
  rw [splitMF_term_block h1 _ [] _ (by simp)]
  obtain ⟨c2, t2, rfl⟩ := List.exists_cons_of_ne_nil (good_ne_nil h2)
  simp only [List.cons_append]
  rw [splitMF_termWs_sep (letter_not_ws (good_head h2 c2 rfl)) _ _ _ (by simp)]
  rw [show (c2 :: (t2 ++ ['.', ' ', '.']) : List Char) =
    (c2 :: t2) ++ ['.', ' ', '.'] from rfl]
  rw [splitMF_term_block h2 ['.', ' ', '.'] [] _ (by simp)]
  rw [splitMF_termWs_sep (by decide) [] _ _ (by simp)]
  rw [splitMF_dot_end [] _ (by simp)]
  simp

/-- A good sentence is not the empty list, as `isEmpty`. -/
theorem good_isEmpty {s : List Char} (hs : goodSentence s = true) : s.isEmpty = false := by
  cases s with
  | nil => exact absurd rfl (good_ne_nil hs)
  | cons c cs => rfl

/-- Note: `trim` fixes a good sentence. -/
theorem trim_good {s : List Char} (hs : goodSentence s = true) : trim s = s :=
  trim_eq_self (fun c hc => letter_not_ws (good_head hs c hc))
    (fun c hc => letter_not_ws (good_last hs c hc))

/-- Note: `trim` fixes a good sentence with a final period. -/
theorem trim_sent_dot {s : List Char} (hs : goodSentence s = true) :
    trim (s ++ ['.']) = s ++ ['.'] :=
  trim_eq_self
    (fun c hc => by
      rw [List.head?_append_of_ne_nil _ (good_ne_nil hs)] at hc
      exact letter_not_ws (good_head hs c hc))
    (fun c hc => by
      rw [getLast_concat_punct ['.'] '.' (by decide) rfl] at hc
      have hc2 : c = '.' := by simpa using hc.symm
      subst hc2
      decide)

/-- Note: `formatDescription` on a good one-sentence text appends a second
period. -/
theorem fmt_one {s : List Char} (hs : goodSentence s = true) :
    formatDescription (s ++ ['.']) = s ++ ['.', '.'] := by
  unfold formatDescription
  rw [clean_one hs]
  simp [split_one hs, trim_sent_dot hs, List.intercalate]

/-- Note: `formatDescription` on a good one-sentence text with a doubled
final period. -/
theorem fmt_one_dd {s : List Char} (hs : goodSentence s = true) :
    formatDescription (s ++ ['.', '.']) = s ++ ['.', ' ', '.', '.'] := by
  unfold formatDescription
  rw [clean_one_dd hs]
  have ht : trim ['.'] = ['.'] := by decide
  simp [split_one_mid hs, trim_good hs, ht, good_isEmpty hs, good_ne_nil hs,
    List.intercalate, chars]

/-- Note: `formatDescription` on a good two-sentence text appends a second
final period. -/
theorem fmt_two {s1 s2 : List Char} (h1 : goodSentence s1 = true)
    (h2 : goodSentence s2 = true) :
    formatDescription (s1 ++ '.' :: ' ' :: (s2 ++ ['.'])) =
      s1 ++ '.' :: ' ' :: (s2 ++ ['.', '.']) := by
  unfold formatDescription
  rw [clean_two h1 h2]
  simp [split_two h1 h2, trim_good h1, trim_sent_dot h2, good_isEmpty h1,
    good_ne_nil h1, List.intercalate, chars]

/-- Note: `formatDescription` on a good two-sentence text with a doubled
final period drops the stray period. -/
theorem fmt_two_dd {s1 s2 : List Char} (h1 : goodSentence s1 = true)
    (h2 : goodSentence s2 = true) :
    formatDescription (s1 ++ '.' :: ' ' :: (s2 ++ ['.', '.'])) =
      s1 ++ '.' :: ' ' :: (s2 ++ ['.']) := by
  unfold formatDescription
  rw [clean_two_dd h1 h2]
  simp [split_two_mid h1 h2, trim_good h1, trim_good h2, good_isEmpty h1,
    good_isEmpty h2, good_ne_nil h1, good_ne_nil h2, List.intercalate, chars]

/-- Claim C6: `formatDescription` is idempotent up to trailing-period
normalisation on texts that are already one or two plain sentences
ending in a period (sentence bodies: non-empty sequences of letters
and single spaces, starting and ending with a letter): applying it
twice yields the same trailing-period-normalised result as applying it
once. -/
theorem c6_formatDescription_idempotent (s1 s2 : List Char)
    (h1 : goodSentence s1 = true) (h2 : goodSentence s2 = true) :
    stripTrailingPeriodWs (formatDescription (formatDescription (oneSentence s1))) =
      stripTrailingPeriodWs (formatDescription (oneSentence s1)) ∧
    stripTrailingPeriodWs (formatDescription (formatDescription (twoSentences s1 s2))) =
      stripTrailingPeriodWs (formatDescription (twoSentences s1 s2)) := by
  have hlast1 : ∀ c, s1.getLast? = some c → (c == '.' || wsChar c) = false := by
    intro c hc
    have hlet := good_last h1 c hc
    simp [letter_ne hlet (show letterChar '.' = false by decide), letter_not_ws hlet]
  have e2 : twoSentences s1 s2 = s1 ++ '.' :: ' ' :: (s2 ++ ['.']) := by
    unfold twoSentences chars
    simp
  constructor
  · show stripTrailingPeriodWs (formatDescription (formatDescription (s1 ++ ['.']))) =
      stripTrailingPeriodWs (formatDescription (s1 ++ ['.']))
    rw [fmt_one h1, fmt_one_dd h1]
    rw [strip_append_junk ['.', ' ', '.', '.'] (by decide) hlast1]
    rw [strip_append_junk ['.', '.'] (by decide) hlast1]
  · have hlast12 : ∀ c, (s1 ++ '.' :: ' ' :: s2).getLast? = some c →
        (c == '.' || wsChar c) = false := by
      intro c hc
      rw [List.getLast?_append_of_ne_nil s1 (by simp)] at hc
      rw [show ('.' :: ' ' :: s2 : List Char) = ['.', ' '] ++ s2 from rfl] at hc
      rw [List.getLast?_append_of_ne_nil (['.', ' ']) (good_ne_nil h2)] at hc
      have hlet := good_last h2 c hc
      simp [letter_ne hlet (show letterChar '.' = false by decide), letter_not_ws hlet]
    rw [e2, fmt_two h1 h2, fmt_two_dd h1 h2]
    have ha : s1 ++ '.' :: ' ' :: (s2 ++ ['.']) =
        (s1 ++ '.' :: ' ' :: s2) ++ ['.'] := by simp
    have hb : s1 ++ '.' :: ' ' :: (s2 ++ ['.', '.']) =
        (s1 ++ '.' :: ' ' :: s2) ++ ['.', '.'] := by simp
    rw [ha, hb]
    rw [strip_append_junk ['.'] (by decide) hlast12]
    rw [strip_append_junk ['.', '.'] (by decide) hlast12]

/-- Witness for C6 at concrete one- and two-sentence texts. -/
theorem c6_formatDescription_idempotent_witness :
    stripTrailingPeriodWs (formatDescription
        (formatDescription (oneSentence (chars "Healthy eating matters")))) =
      stripTrailingPeriodWs (formatDescription (oneSentence (chars "Healthy eating matters"))) ∧
    stripTrailingPeriodWs (formatDescription (formatDescription
        (twoSentences (chars "Healthy eating matters") (chars "It helps you")))) =
      stripTrailingPeriodWs (formatDescription
        (twoSentences (chars "Healthy eating matters") (chars "It helps you"))) :=
  c6_formatDescription_idempotent (chars "Healthy eating matters") (chars "It helps you")
    (by decide) (by decide)
